import Mathlib

/-!
# Verification of the word-search placement core (`word_search.py`)

Shallow embedding of the grid/placer core of the repository:
`generate_grid`, `can_place_word`, `place_word`, `fill_empty_spaces` and
`generate_word_search`.

Modelling conventions:
* A grid is a `List (List Char)`; the Python "empty" sentinel is the space
  character `' '`, exactly as in the source.
* Python `int` indices are `Int`; counts (`range`, `len`) use `Nat` with
  explicit `Int.toNat` where the source feeds a possibly non-positive int to
  `range` (Python's `range(n)` is empty for `n ≤ 0`).
* All randomness of the `random` module is abstracted by a `RandOracle`:
  `nat k` is the `k`-th primitive integer draw (reduced `% n` for
  `randint(0, n-1)` and for `choice` on a list of length `n`, which is exactly
  the range the Python primitives guarantee), and `shuf j l` is the result of
  the `j`-th call to `random.shuffle` on list `l`.  Theorems that depend on
  `random.shuffle` returning a permutation take that as an explicit
  hypothesis on the oracle (`random.shuffle` permutes in place, so the
  hypothesis is true of every real run).
* `raise` is modelled with `Except`: `GenError.couldNotPlace us` is the
  `ValueError` of line 84 of the source carrying the unplaced word list, and
  `GenError.unboundLocal` is the `UnboundLocalError` produced when line 85
  reads `unplaced_words` although the `for` loop body never ran.
* The embedding is pure, so the source facts "`can_place_word` has no side
  effects / never mutates the grid" hold by construction: `can_place_word`
  returns only a `Bool` and is a function of the grid value.
-/

abbrev Grid := List (List Char)

abbrev Word := List Char

abbrev Dir := Int × Int

/-- Abstraction of the `random` module: a stream of primitive integer draws
and, separately indexed, the outcomes of the in-place `random.shuffle` calls. -/
structure RandOracle where
  nat : Nat → Nat
  shuf : Nat → List Dir → List Dir

/-- The two failure modes of `generate_word_search`: the `ValueError` of
line 84 (placement infeasible, carrying the unplaced words of the final
attempt) and the `UnboundLocalError` raised when the outer `for` loop ran
zero times and line 85 reads the never-assigned `unplaced_words`. -/
inductive GenError where
  | unboundLocal : GenError
  | couldNotPlace : List Word → GenError
deriving DecidableEq, Repr

/-- `string.ascii_uppercase`. -/
def asciiUppercase : List Char :=
  ['A','B','C','D','E','F','G','H','I','J','K','L','M',
   'N','O','P','Q','R','S','T','U','V','W','X','Y','Z']

/-- The eight-direction list of line 48 of the source, in source order. -/
def directionsInit : List Dir :=
  [(1,0), (0,1), (1,1), (-1,1), (1,-1), (-1,-1), (0,-1), (-1,0)]

/-- `grid[r][c]` for in-bounds non-negative indices (every dereference in the
source is guarded by the bounds check of `can_place_word`, or established by
it at the call sites of `place_word`). -/
def cellAt (grid : Grid) (r c : Int) : Char :=
  (grid.getD r.toNat []).getD c.toNat ' '

/-- `grid[r][c] = ch` for in-bounds non-negative indices; out-of-range writes
do not occur in the modelled runs (the caller has checked `can_place_word`)
and are modelled as no-ops. -/
def setCell (grid : Grid) (r c : Int) (ch : Char) : Grid :=
  if 0 ≤ r ∧ 0 ≤ c then
    grid.set r.toNat ((grid.getD r.toNat []).set c.toNat ch)
  else grid

/-- Lines 17-18: `[[' ' for _ in range(cols)] for _ in range(rows)]`.
Python's `range` is empty for a non-positive argument, hence `Int.toNat`. -/
def generate_grid (rows cols : Int) : Grid :=
  List.replicate rows.toNat (List.replicate cols.toNat ' ')

/-- Lines 21-30 of the source.  The loop returns `False` at the first offset
whose target cell is out of bounds or holds a letter that is neither the
sentinel nor `word[i]`; `List.all` over `range` is that conjunction.  Python's
short-circuit `or` checks bounds before dereferencing, so `cellAt` is only
reached in bounds; `rows, cols = len(grid), len(grid[0])` becomes
`grid.length` and `(grid.getD 0 []).length`.  On the empty grid CPython
raises `IndexError` at `len(grid[0])`; the model reads `cols` as `0` there,
so theorems quantifying over grids restrict to non-empty (positive-dimension)
grids, the only ones the program ever passes here. -/
def can_place_word (grid : Grid) (word : Word) (row col : Int) (direction : Dir) : Bool :=
  let rows : Int := grid.length
  let cols : Int := (grid.getD 0 []).length
  (List.range word.length).all fun i =>
    let r : Int := row + (i : Int) * direction.1
    let c : Int := col + (i : Int) * direction.2
    decide (0 ≤ r) && decide (r < rows) && decide (0 ≤ c) && decide (c < cols) &&
      (cellAt grid r c == ' ' || cellAt grid r c == word.getD i ' ')

/-- The `for i in range(len(word))` loop of `place_word`, recursion over the
list of offsets still to write. -/
def placeCells (word : Word) (row col : Int) (d : Dir) : List Nat → Grid → Grid
  | [], g => g
  | i :: is, g =>
      placeCells word row col d is
        (setCell g (row + (i : Int) * d.1) (col + (i : Int) * d.2) (word.getD i ' '))

/-- Lines 33-36: write `word[i]` into `grid[row + i*dr][col + i*dc]` for each
offset, in increasing offset order. -/
def place_word (grid : Grid) (word : Word) (row col : Int) (d : Dir) : Grid :=
  placeCells word row col d (List.range word.length) grid

/-- One row of `fill_empty_spaces`: each `' '` cell consumes one draw and
becomes `random.choice(string.ascii_uppercase)`; other cells are untouched.
Returns the new row and the advanced draw counter. -/
def fillRow (o : RandOracle) : List Char → Nat → List Char × Nat
  | [], k => ([], k)
  | ch :: cs, k =>
      if ch = ' ' then
        let p := fillRow o cs (k + 1)
        (asciiUppercase.getD (o.nat k % 26) 'A' :: p.1, p.2)
      else
        let p := fillRow o cs k
        (ch :: p.1, p.2)

/-- Lines 39-44: row-major scan replacing every `' '` by a random uppercase
letter.  CPython evaluates `len(grid[0])` first and raises `IndexError` on
the empty grid; the model simply returns the empty grid, so theorems about
runs that reach the fill restrict to `1 ≤ rows`. -/
def fill_empty_spaces (o : RandOracle) : Grid → Nat → Grid × Nat
  | [], k => ([], k)
  | row :: rest, k =>
      let p := fillRow o row k
      let q := fill_empty_spaces o rest p.2
      (p.1 :: q.1, q.2)

/-- Lines 65-75, the `while not placed and attempts < max_attempts` loop for
one word: each trial draws a row in `[0, rows)`, a column in `[0, cols)` and a
direction by index into the (already shuffled) direction list, and commits the
first trial where `can_place_word` succeeds.  `fuel` is the number of
remaining attempts, `k` the draw counter.  Returns the chosen position (if
any), the updated grid and the advanced counter.  The `% rows` / `% cols`
draw models `randint(0, rows - 1)` / `randint(0, cols - 1)`, which is exact
for `rows, cols ≥ 1`; for an empty range CPython's `randint` raises
`ValueError` instead, a crash the oracle model does not reproduce, so
theorems about runs that reach a draw hypothesize `1 ≤ rows` and
`1 ≤ cols`. -/
def tryPlace (o : RandOracle) (rows cols : Nat) (grid : Grid) (word : Word)
    (ds : List Dir) : Nat → Nat → Option (Int × Int × Dir) × Grid × Nat
  | 0, k => (none, grid, k)
  | fuel + 1, k =>
      let row : Int := (o.nat k % rows : Nat)
      let col : Int := (o.nat (k + 1) % cols : Nat)
      let dir := ds.getD (o.nat (k + 2) % ds.length) (0, 0)
      if can_place_word grid word row col dir then
        (some (row, col, dir), place_word grid word row col dir, k + 3)
      else
        tryPlace o rows cols grid word ds fuel (k + 3)

/-- Lines 59-78, the `for word in words` loop of one outer attempt: shuffle
the direction list (the list object persists across words and attempts), try
the word, and append it to the position list or to the unplaced list.
`k` counts primitive draws, `j` counts shuffle calls.  Returns
`(grid, word_positions, unplaced_words, directions, k, j)`. -/
def placeWords (o : RandOracle) (rows cols maxAtt : Nat) :
    List Word → Grid → List Dir → Nat → Nat →
      Grid × List (Word × Int × Int × Dir) × List Word × List Dir × Nat × Nat
  | [], grid, ds, k, j => (grid, [], [], ds, k, j)
  | w :: ws, grid, ds, k, j =>
      let ds1 := o.shuf j ds
      match tryPlace o rows cols grid w ds1 maxAtt k with
      | (some (row, col, dir), grid1, k1) =>
          let rest := placeWords o rows cols maxAtt ws grid1 ds1 k1 (j + 1)
          (rest.1, (w, row, col, dir) :: rest.2.1, rest.2.2.1, rest.2.2.2)
      | (none, grid1, k1) =>
          let rest := placeWords o rows cols maxAtt ws grid1 ds1 k1 (j + 1)
          (rest.1, rest.2.1, w :: rest.2.2.1, rest.2.2.2)

/-- Lines 54-85, the `for attempt in range(max_retries)` loop.  `last` models
the Python local variable `unplaced_words` as seen at line 85: `none` while it
was never assigned (so the final `raise` is an `UnboundLocalError`), `some us`
after the most recent attempt.  A fully successful attempt fills the grid and
returns; otherwise the grid and records are discarded and only the direction
list, the oracle counters and `unplaced_words` survive into the next attempt. -/
def generateLoop (o : RandOracle) (ws : List Word) (rows cols maxAtt : Nat) :
    Nat → List Dir → Nat → Nat → Option (List Word) →
      Except GenError (Grid × List (Word × Int × Int × Dir))
  | 0, _, _, _, none => .error .unboundLocal
  | 0, _, _, _, some us => .error (.couldNotPlace us)
  | fuel + 1, ds, k, j, _ =>
      match placeWords o rows cols maxAtt ws (generate_grid rows cols) ds k j with
      | (g, ps, [], _, k1, _) => .ok ((fill_empty_spaces o g k1).1, ps)
      | (_, _, u :: us, ds1, k1, j1) =>
          generateLoop o ws rows cols maxAtt fuel ds1 k1 j1 (some (u :: us))

/-- Line 52: `sorted(words, key=len, reverse=True)` — a stable sort by
descending length (Python's sort is stable; `reverse=True` reverses the
comparison, not the output, so equal-length words keep their input order).
`List.insertionSort` with this total preorder is stable in the same sense and
therefore produces the identical list. -/
def sortWords (ws : List Word) : List Word :=
  List.insertionSort (fun a b => b.length ≤ a.length) ws

/-- Lines 47-85: sort the words, then run up to `max_retries` attempts from a
fresh empty grid each.  Configuration ints may be non-positive, in which case
the corresponding Python loop simply runs zero times. -/
def generate_word_search (o : RandOracle) (words : List Word)
    (rows cols max_attempts max_retries : Int) :
    Except GenError (Grid × List (Word × Int × Int × Dir)) :=
  generateLoop o (sortWords words) rows.toNat cols.toNat max_attempts.toNat
    max_retries.toNat directionsInit 0 0 none

/-- Error type of the specification's `create(rows, cols)`. -/
inductive GridError where
  | invalidDimension : GridError
deriving DecidableEq, Repr

/-- Modelled from the spec (the source has no such check): "`create(rows,
cols)` → Grid with every cell set to \"empty\".  Fails with `InvalidDimension`
if rows ≤ 0 or cols ≤ 0."  Used only to exhibit the divergence between the
spec's grid creation and the source's `generate_grid`. -/
def createSpec (rows cols : Int) : Except GridError Grid :=
  if rows ≤ 0 ∨ cols ≤ 0 then .error .invalidDimension
  else .ok (List.replicate rows.toNat (List.replicate cols.toNat ' '))

/-- `g` is a `rows × cols` rectangular grid. -/
def Dims (g : Grid) (rows cols : Nat) : Prop :=
  g.length = rows ∧ ∀ row ∈ g, row.length = cols

/-- A placement record reads back correctly from grid `g`: every offset of the
word lies in the `rows × cols` bounds and the grid holds the word's character
there (`w.getD i ' '` is `word[i]`, as `i < w.length`). -/
def RecOK (rows cols : Nat) (g : Grid) : Word × Int × Int × Dir → Prop
  | (w, row, col, d) => ∀ i < w.length,
      0 ≤ row + (i : Int) * d.1 ∧ row + (i : Int) * d.1 < (rows : Int) ∧
      0 ≤ col + (i : Int) * d.2 ∧ col + (i : Int) * d.2 < (cols : Int) ∧
      cellAt g (row + (i : Int) * d.1) (col + (i : Int) * d.2) = w.getD i ' '

/-- A concrete oracle: every primitive draw is `0`, shuffles leave the list as
it is (the identity is one of the permutations `random.shuffle` can return). -/
def oZero : RandOracle where
  nat := fun _ => 0
  shuf := fun _ l => l

/-! ## Basic lemmas about cell access and update -/

theorem getD_mem_of_lt {α : Type} {l : List α} {n : Nat} (d : α) (h : n < l.length) :
    l.getD n d ∈ l := by
  rw [List.getD_eq_getElem _ _ h]
  exact List.getElem_mem h

theorem dims_row_len {g : Grid} {rows cols : Nat} (hD : Dims g rows cols)
    {n : Nat} (h : n < g.length) : (g.getD n []).length = cols :=
  hD.2 _ (getD_mem_of_lt [] h)

theorem getD_set_self {α : Type} (l : List α) (n : Nat) (a d : α) (h : n < l.length) :
    (l.set n a).getD n d = a := by
  rw [List.getD_eq_getElem?_getD]
  simp [List.getElem?_set, h]

theorem getD_set_ne {α : Type} (l : List α) (n m : Nat) (a d : α) (h : n ≠ m) :
    (l.set n a).getD m d = l.getD m d := by
  rw [List.getD_eq_getElem?_getD, List.getD_eq_getElem?_getD, List.getElem?_set_ne h]

theorem length_setCell (g : Grid) (r c : Int) (ch : Char) :
    (setCell g r c ch).length = g.length := by
  unfold setCell
  split
  · exact List.length_set ..
  · rfl

theorem rowLen_setCell (g : Grid) (r c : Int) (ch : Char) (n : Nat) :
    ((setCell g r c ch).getD n []).length = (g.getD n []).length := by
  unfold setCell
  split
  · rcases eq_or_ne r.toNat n with h | h
    · subst h
      rcases Nat.lt_or_ge r.toNat g.length with hlt | hge
      · rw [getD_set_self _ _ _ _ hlt, List.length_set]
      · rw [List.set_eq_of_length_le hge]
    · rw [getD_set_ne _ _ _ _ _ h]
  · rfl

theorem dims_setCell {g : Grid} {rows cols : Nat} (hD : Dims g rows cols)
    (r c : Int) (ch : Char) : Dims (setCell g r c ch) rows cols := by
  obtain ⟨hlen, hrow⟩ := hD
  refine ⟨by rw [length_setCell, hlen], ?_⟩
  intro row hmem
  unfold setCell at hmem
  split at hmem
  · rcases Nat.lt_or_ge r.toNat g.length with hlt | hge
    · rcases List.mem_or_eq_of_mem_set hmem with h | h
      · exact hrow row h
      · subst h
        rw [List.length_set]
        exact hrow _ (by rw [List.getD_eq_getElem _ _ hlt]; exact List.getElem_mem hlt)
    · rw [List.set_eq_of_length_le hge] at hmem
      exact hrow row hmem
  · exact hrow row hmem

theorem cellAt_setCell_same {g : Grid} {r c : Int} (ch : Char)
    (hr0 : 0 ≤ r) (hc0 : 0 ≤ c) (hr : r.toNat < g.length)
    (hc : c.toNat < (g.getD r.toNat []).length) :
    cellAt (setCell g r c ch) r c = ch := by
  unfold setCell cellAt
  rw [if_pos ⟨hr0, hc0⟩, getD_set_self _ _ _ _ hr, getD_set_self _ _ _ _ hc]

theorem cellAt_setCell_ne {g : Grid} {r c r' c' : Int} (ch : Char)
    (hr0 : 0 ≤ r') (hc0 : 0 ≤ c') (hne : r ≠ r' ∨ c ≠ c') :
    cellAt (setCell g r c ch) r' c' = cellAt g r' c' := by
  unfold setCell cellAt
  split
  · next hpos =>
    obtain ⟨hr, hc⟩ := hpos
    rcases eq_or_ne r.toNat r'.toNat with hrr | hrr
    · have hreq : r = r' := by omega
      have hcc : c.toNat ≠ c'.toNat := by
        rcases hne with h | h
        · exact absurd hreq h
        · omega
      rw [← hrr]
      rcases Nat.lt_or_ge r.toNat g.length with hlt | hge
      · rw [getD_set_self _ _ _ _ hlt, getD_set_ne _ _ _ _ _ hcc]
      · rw [List.set_eq_of_length_le hge]
    · rw [getD_set_ne _ _ _ _ _ hrr]
  · rfl

theorem cellAt_setCell_or (g : Grid) (r c : Int) (ch : Char) :
    cellAt (setCell g r c ch) r c = ch ∨ cellAt (setCell g r c ch) r c = cellAt g r c := by
  unfold setCell cellAt
  split
  · rcases Nat.lt_or_ge r.toNat g.length with hlt | hge
    · rw [getD_set_self _ _ _ _ hlt]
      rcases Nat.lt_or_ge c.toNat (g.getD r.toNat []).length with hclt | hcge
      · exact Or.inl (getD_set_self _ _ _ _ hclt)
      · rw [List.set_eq_of_length_le hcge]
        exact Or.inr rfl
    · rw [List.set_eq_of_length_le hge]
      exact Or.inr rfl
  · exact Or.inr rfl

theorem mem_setCell {g : Grid} {r c : Int} {ch : Char} {row1 : List Char} {x : Char}
    (hrow : row1 ∈ setCell g r c ch) (hx : x ∈ row1) :
    (∃ row0 ∈ g, x ∈ row0) ∨ x = ch := by
  unfold setCell at hrow
  split at hrow
  · rcases Nat.lt_or_ge r.toNat g.length with hlt | hge
    · rcases List.mem_or_eq_of_mem_set hrow with h | h
      · exact Or.inl ⟨row1, h, hx⟩
      · subst h
        rcases List.mem_or_eq_of_mem_set hx with h | h
        · refine Or.inl ⟨g.getD r.toNat [], ?_, h⟩
          rw [List.getD_eq_getElem _ _ hlt]
          exact List.getElem_mem hlt
        · exact Or.inr h
    · rw [List.set_eq_of_length_le hge] at hrow
      exact Or.inl ⟨row1, hrow, hx⟩
  · exact Or.inl ⟨row1, hrow, hx⟩

/-! ## Characterization of `can_place_word` (lines 21-30) -/

theorem can_place_word_iff (g : Grid) (w : Word) (row col : Int) (d : Dir) :
    can_place_word g w row col d = true ↔
      ∀ i < w.length,
        (0 ≤ row + (i : Int) * d.1 ∧ row + (i : Int) * d.1 < (g.length : Int) ∧
         0 ≤ col + (i : Int) * d.2 ∧ col + (i : Int) * d.2 < ((g.getD 0 []).length : Int)) ∧
        (cellAt g (row + (i : Int) * d.1) (col + (i : Int) * d.2) = ' ' ∨
         cellAt g (row + (i : Int) * d.1) (col + (i : Int) * d.2) = w.getD i ' ') := by
  simp only [can_place_word, List.all_eq_true, List.mem_range, Bool.and_eq_true,
    decide_eq_true_eq, Bool.or_eq_true, beq_iff_eq]
  constructor
  · intro h i hi
    obtain ⟨⟨⟨⟨h1, h2⟩, h3⟩, h4⟩, h5⟩ := h i hi
    exact ⟨⟨h1, h2, h3, h4⟩, h5⟩
  · intro h i hi
    obtain ⟨⟨h1, h2, h3, h4⟩, h5⟩ := h i hi
    exact ⟨⟨⟨⟨h1, h2⟩, h3⟩, h4⟩, h5⟩

/-! ## Lemmas about `place_word` (lines 33-36) -/

theorem placeCells_length (w : Word) (row col : Int) (d : Dir) :
    ∀ (is : List Nat) (g : Grid), (placeCells w row col d is g).length = g.length := by
  intro is
  induction is with
  | nil => intro g; rfl
  | cons i is ih =>
      intro g
      rw [placeCells, ih, length_setCell]

theorem placeCells_rowLen (w : Word) (row col : Int) (d : Dir) :
    ∀ (is : List Nat) (g : Grid) (n : Nat),
      ((placeCells w row col d is g).getD n []).length = (g.getD n []).length := by
  intro is
  induction is with
  | nil => intro g n; rfl
  | cons i is ih =>
      intro g n
      rw [placeCells, ih, rowLen_setCell]

theorem dims_placeCells (w : Word) (row col : Int) (d : Dir) {rows cols : Nat} :
    ∀ (is : List Nat) (g : Grid), Dims g rows cols →
      Dims (placeCells w row col d is g) rows cols := by
  intro is
  induction is with
  | nil => intro g hD; exact hD
  | cons i is ih =>
      intro g hD
      exact ih _ (dims_setCell hD _ _ _)

theorem dims_place_word {g : Grid} {rows cols : Nat} (hD : Dims g rows cols)
    (w : Word) (row col : Int) (d : Dir) :
    Dims (place_word g w row col d) rows cols :=
  dims_placeCells w row col d _ g hD

theorem placeCells_frame (w : Word) (row col : Int) (d : Dir) :
    ∀ (is : List Nat) (g : Grid) (r c : Int), 0 ≤ r → 0 ≤ c →
      (∀ i ∈ is, ¬(row + (i : Int) * d.1 = r ∧ col + (i : Int) * d.2 = c)) →
      cellAt (placeCells w row col d is g) r c = cellAt g r c := by
  intro is
  induction is with
  | nil => intro g r c _ _ _; rfl
  | cons i is ih =>
      intro g r c hr hc hni
      rw [placeCells, ih _ r c hr hc (fun i' h' => hni i' (List.mem_cons_of_mem _ h'))]
      exact cellAt_setCell_ne _ hr hc (not_and_or.mp (hni i (List.mem_cons_self ..)))

theorem placeCells_read (w : Word) (row col : Int) (d : Dir)
    (hinj : ∀ i j : Nat, row + (i : Int) * d.1 = row + (j : Int) * d.1 →
      col + (i : Int) * d.2 = col + (j : Int) * d.2 → i = j) :
    ∀ (is : List Nat) (g : Grid), is.Nodup →
      (∀ i ∈ is, 0 ≤ row + (i : Int) * d.1 ∧
        (row + (i : Int) * d.1).toNat < g.length ∧
        0 ≤ col + (i : Int) * d.2 ∧
        (col + (i : Int) * d.2).toNat < (g.getD (row + (i : Int) * d.1).toNat []).length) →
      ∀ i ∈ is, cellAt (placeCells w row col d is g)
        (row + (i : Int) * d.1) (col + (i : Int) * d.2) = w.getD i ' ' := by
  intro is
  induction is with
  | nil => intro g _ _ i h; exact absurd h (List.not_mem_nil i)
  | cons i0 is ih =>
      intro g hnd hbd i hi
      rw [placeCells]
      rcases List.mem_cons.mp hi with heq | hmem
      · subst heq
        obtain ⟨hb1, hb2, hb3, hb4⟩ := hbd i (List.mem_cons_self ..)
        rw [placeCells_frame w row col d is _ _ _ hb1 hb3 ?_fr]
        case _fr =>
          intro i' hi' hcells
          have : i' = i := hinj i' i hcells.1 hcells.2
          subst this
          exact (List.nodup_cons.mp hnd).1 hi'
        exact cellAt_setCell_same _ hb1 hb3 hb2 hb4
      · refine ih _ (List.nodup_cons.mp hnd).2 ?_ i hmem
        intro i' hi'
        obtain ⟨hb1, hb2, hb3, hb4⟩ := hbd i' (List.mem_cons_of_mem _ hi')
        refine ⟨hb1, ?_, hb3, ?_⟩
        · rw [length_setCell]; exact hb2
        · rw [rowLen_setCell]; exact hb4

theorem placeCells_preserve (w : Word) (row col : Int) (d : Dir) :
    ∀ (is : List Nat) (g : Grid) (r c : Int) (v : Char), 0 ≤ r → 0 ≤ c →
      cellAt g r c = v →
      (∀ i ∈ is, row + (i : Int) * d.1 = r → col + (i : Int) * d.2 = c →
        w.getD i ' ' = v) →
      cellAt (placeCells w row col d is g) r c = v := by
  intro is
  induction is with
  | nil => intro g r c v _ _ hv _; exact hv
  | cons i0 is ih =>
      intro g r c v hr hc hv hw
      rw [placeCells]
      refine ih _ r c v hr hc ?_ (fun i' h' => hw i' (List.mem_cons_of_mem _ h'))
      by_cases hcell : row + (i0 : Int) * d.1 = r ∧ col + (i0 : Int) * d.2 = c
      · obtain ⟨h1, h2⟩ := hcell
        rw [h1, h2]
        have hwv : w.getD i0 ' ' = v := hw i0 (List.mem_cons_self ..) h1 h2
        rcases cellAt_setCell_or g r c (w.getD i0 ' ') with h | h
        · rw [h, hwv]
        · rw [h, hv]
      · rw [cellAt_setCell_ne _ hr hc (not_and_or.mp hcell)]
        exact hv

theorem placeCells_chars (w : Word) (row col : Int) (d : Dir) :
    ∀ (is : List Nat) (g : Grid) (row1 : List Char) (x : Char),
      row1 ∈ placeCells w row col d is g → x ∈ row1 →
      (∃ row0 ∈ g, x ∈ row0) ∨ ∃ i ∈ is, x = w.getD i ' ' := by
  intro is
  induction is with
  | nil => intro g row1 x hrow hx; exact Or.inl ⟨row1, hrow, hx⟩
  | cons i0 is ih =>
      intro g row1 x hrow hx
      rw [placeCells] at hrow
      rcases ih _ row1 x hrow hx with h | ⟨i, hi, hxi⟩
      · obtain ⟨row0, hr0, hx0⟩ := h
        rcases mem_setCell hr0 hx0 with h' | h'
        · exact Or.inl h'
        · exact Or.inr ⟨i0, List.mem_cons_self .., h'⟩
      · exact Or.inr ⟨i, List.mem_cons_of_mem _ hi, hxi⟩

/-- Directions of the eight-direction set are non-degenerate. -/
theorem directionsInit_ne_zero : ∀ d ∈ directionsInit, ¬(d.1 = 0 ∧ d.2 = 0) := by
  decide

/-- Distinct offsets of a word laid out along a non-degenerate direction land
on distinct cells. -/
theorem path_injective {row col : Int} {d : Dir} (hd : ¬(d.1 = 0 ∧ d.2 = 0)) :
    ∀ i j : Nat, row + (i : Int) * d.1 = row + (j : Int) * d.1 →
      col + (i : Int) * d.2 = col + (j : Int) * d.2 → i = j := by
  intro i j h1 h2
  rcases not_and_or.mp hd with h | h
  · have : (i : Int) * d.1 = (j : Int) * d.1 := by omega
    have : (i : Int) = (j : Int) := mul_right_cancel₀ h this
    exact_mod_cast this
  · have : (i : Int) * d.2 = (j : Int) * d.2 := by omega
    have : (i : Int) = (j : Int) := mul_right_cancel₀ h this
    exact_mod_cast this

theorem place_word_reads {g : Grid} {rows cols : Nat} {w : Word} {row col : Int} {d : Dir}
    (hD : Dims g rows cols) (hc : can_place_word g w row col d = true)
    (hd : ¬(d.1 = 0 ∧ d.2 = 0)) :
    ∀ i < w.length, cellAt (place_word g w row col d)
      (row + (i : Int) * d.1) (col + (i : Int) * d.2) = w.getD i ' ' := by
  intro i hi
  have hiff := (can_place_word_iff g w row col d).mp hc
  refine placeCells_read w row col d (path_injective hd) _ g (List.nodup_range _) ?_ i
    (List.mem_range.mpr hi)
  intro i' hi'
  obtain ⟨⟨h1, h2, h3, h4⟩, _⟩ := hiff i' (List.mem_range.mp hi')
  have hrn : (row + (i' : Int) * d.1).toNat < g.length := by omega
  refine ⟨h1, hrn, h3, ?_⟩
  rw [dims_row_len hD hrn]
  by_cases hg : g.length = 0
  · omega
  · have h0 : (0 : Nat) < g.length := Nat.pos_of_ne_zero hg
    have := dims_row_len hD h0
    omega

theorem place_word_preserve {g : Grid} {w : Word} {row col : Int} {d : Dir}
    (hc : can_place_word g w row col d = true) :
    ∀ r c : Int, 0 ≤ r → 0 ≤ c → cellAt g r c ≠ ' ' →
      cellAt (place_word g w row col d) r c = cellAt g r c := by
  intro r c hr hc0 hne
  have hiff := (can_place_word_iff g w row col d).mp hc
  refine placeCells_preserve w row col d _ g r c _ hr hc0 rfl ?_
  intro i hi h1 h2
  obtain ⟨_, hcell⟩ := hiff i (List.mem_range.mp hi)
  rw [h1, h2] at hcell
  rcases hcell with h | h
  · exact absurd h hne
  · exact h.symm

theorem place_word_chars {g : Grid} {w : Word} {row col : Int} {d : Dir}
    {row1 : List Char} {x : Char}
    (hrow : row1 ∈ place_word g w row col d) (hx : x ∈ row1) :
    (∃ row0 ∈ g, x ∈ row0) ∨ x ∈ w := by
  rcases placeCells_chars w row col d _ g row1 x hrow hx with h | ⟨i, hi, hxi⟩
  · exact Or.inl h
  · refine Or.inr ?_
    subst hxi
    exact getD_mem_of_lt ' ' (List.mem_range.mp hi)

theorem place_word_frame {g : Grid} {w : Word} {row col : Int} {d : Dir} :
    ∀ r c : Int, 0 ≤ r → 0 ≤ c →
      (∀ i < w.length, ¬(row + (i : Int) * d.1 = r ∧ col + (i : Int) * d.2 = c)) →
      cellAt (place_word g w row col d) r c = cellAt g r c := by
  intro r c hr hc hni
  exact placeCells_frame w row col d _ g r c hr hc
    (fun i h => hni i (List.mem_range.mp h))

/-! ## Lemmas about `fill_empty_spaces` (lines 39-44) -/

theorem asciiUppercase_ne_space : ∀ x ∈ asciiUppercase, x ≠ ' ' := by
  decide

theorem choice_uppercase_mem (m : Nat) :
    asciiUppercase.getD (m % 26) 'A' ∈ asciiUppercase := by
  refine getD_mem_of_lt _ ?_
  have : m % 26 < 26 := Nat.mod_lt _ (by omega)
  simpa [asciiUppercase] using this

theorem fillRow_length (o : RandOracle) :
    ∀ (cs : List Char) (k : Nat), ((fillRow o cs k).1).length = cs.length := by
  intro cs
  induction cs with
  | nil => intro k; rfl
  | cons ch cs ih =>
      intro k
      rw [fillRow]
      split
      · simpa using ih (k + 1)
      · simpa using ih k

theorem fillRow_getD (o : RandOracle) :
    ∀ (cs : List Char) (k n : Nat), n < cs.length →
      (cs.getD n ' ' ≠ ' ' → (fillRow o cs k).1.getD n ' ' = cs.getD n ' ') ∧
      (cs.getD n ' ' = ' ' → (fillRow o cs k).1.getD n ' ' ∈ asciiUppercase) := by
  intro cs
  induction cs with
  | nil => intro k n h; simp at h
  | cons ch cs ih =>
      intro k n hn
      rw [fillRow]
      by_cases hch : ch = ' '
      · rw [if_pos hch]
        cases n with
        | zero => simpa [hch] using choice_uppercase_mem (o.nat k)
        | succ n => simpa using ih (k + 1) n (by simpa using hn)
      · rw [if_neg hch]
        cases n with
        | zero => simp [hch]
        | succ n => simpa using ih k n (by simpa using hn)

theorem fillRow_mem (o : RandOracle) :
    ∀ (cs : List Char) (k : Nat) (x : Char), x ∈ (fillRow o cs k).1 →
      (x ∈ cs ∧ x ≠ ' ') ∨ x ∈ asciiUppercase := by
  intro cs
  induction cs with
  | nil => intro k x h; simp [fillRow] at h
  | cons ch cs ih =>
      intro k x h
      rw [fillRow] at h
      by_cases hch : ch = ' '
      · rw [if_pos hch] at h
        rcases List.mem_cons.mp h with h' | h'
        · exact Or.inr (h' ▸ choice_uppercase_mem (o.nat k))
        · rcases ih (k + 1) x h' with ⟨h1, h2⟩ | h1
          · exact Or.inl ⟨List.mem_cons_of_mem _ h1, h2⟩
          · exact Or.inr h1
      · rw [if_neg hch] at h
        rcases List.mem_cons.mp h with h' | h'
        · exact Or.inl ⟨h' ▸ List.mem_cons_self .., h' ▸ hch⟩
        · rcases ih k x h' with ⟨h1, h2⟩ | h1
          · exact Or.inl ⟨List.mem_cons_of_mem _ h1, h2⟩
          · exact Or.inr h1

theorem fill_length (o : RandOracle) :
    ∀ (g : Grid) (k : Nat), ((fill_empty_spaces o g k).1).length = g.length := by
  intro g
  induction g with
  | nil => intro k; rfl
  | cons row rest ih =>
      intro k
      rw [fill_empty_spaces]
      simpa using ih (fillRow o row k).2

theorem fill_row_eq (o : RandOracle) :
    ∀ (g : Grid) (k n : Nat), n < g.length →
      ∃ k1, (fill_empty_spaces o g k).1.getD n [] = (fillRow o (g.getD n []) k1).1 := by
  intro g
  induction g with
  | nil => intro k n h; simp at h
  | cons row rest ih =>
      intro k n hn
      rw [fill_empty_spaces]
      cases n with
      | zero => exact ⟨k, by simp⟩
      | succ n =>
          obtain ⟨k1, hk1⟩ := ih (fillRow o row k).2 n (by simpa using hn)
          exact ⟨k1, by simpa using hk1⟩

theorem fill_cellAt_preserve (o : RandOracle) (g : Grid) (k : Nat) (r c : Int)
    (hne : cellAt g r c ≠ ' ') :
    cellAt (fill_empty_spaces o g k).1 r c = cellAt g r c := by
  have hrn : r.toNat < g.length := by
    by_contra h
    apply hne
    unfold cellAt
    rw [List.getD_eq_default _ _ (Nat.le_of_not_lt h)]
    rfl
  have hcn : c.toNat < (g.getD r.toNat []).length := by
    by_contra h
    apply hne
    unfold cellAt
    rw [List.getD_eq_default _ _ (Nat.le_of_not_lt h)]
  obtain ⟨k1, hk1⟩ := fill_row_eq o g k r.toNat hrn
  unfold cellAt
  rw [hk1]
  exact (fillRow_getD o (g.getD r.toNat []) k1 c.toNat hcn).1 hne

theorem fill_chars (o : RandOracle) :
    ∀ (g : Grid) (k : Nat) (row1 : List Char) (x : Char),
      row1 ∈ (fill_empty_spaces o g k).1 → x ∈ row1 →
      ((∃ row0 ∈ g, x ∈ row0) ∧ x ≠ ' ') ∨ x ∈ asciiUppercase := by
  intro g
  induction g with
  | nil => intro k row1 x h _; simp [fill_empty_spaces] at h
  | cons row rest ih =>
      intro k row1 x hrow hx
      rw [fill_empty_spaces] at hrow
      rcases List.mem_cons.mp hrow with h | h
      · subst h
        rcases fillRow_mem o row k x hx with ⟨h1, h2⟩ | h1
        · exact Or.inl ⟨⟨row, List.mem_cons_self .., h1⟩, h2⟩
        · exact Or.inr h1
      · rcases ih (fillRow o row k).2 row1 x h hx with ⟨⟨row0, h1, h2⟩, h3⟩ | h1
        · exact Or.inl ⟨⟨row0, List.mem_cons_of_mem _ h1, h2⟩, h3⟩
        · exact Or.inr h1

theorem fill_no_space (o : RandOracle) (g : Grid) (k : Nat) :
    ∀ row1 ∈ (fill_empty_spaces o g k).1, ∀ x ∈ row1, x ≠ ' ' := by
  intro row1 hrow x hx
  rcases fill_chars o g k row1 x hrow hx with ⟨_, h⟩ | h
  · exact h
  · exact asciiUppercase_ne_space x h

theorem fill_dims (o : RandOracle) (g : Grid) (k : Nat) {rows cols : Nat}
    (hD : Dims g rows cols) : Dims (fill_empty_spaces o g k).1 rows cols := by
  refine ⟨by rw [fill_length, hD.1], ?_⟩
  intro row1 hrow
  obtain ⟨n, hn, hget⟩ := List.mem_iff_getElem.mp hrow
  have hn' : n < g.length := by
    have := fill_length o g k
    omega
  obtain ⟨k1, hk1⟩ := fill_row_eq o g k n hn'
  rw [← hget, ← List.getD_eq_getElem _ [] hn, hk1, fillRow_length]
  exact dims_row_len hD hn'

/-! ## Lemmas about `generate_grid` (lines 17-18) -/

theorem dims_generate_grid (rows cols : Nat) :
    Dims (generate_grid (rows : Int) (cols : Int)) rows cols := by
  constructor
  · simp [generate_grid]
  · intro row hrow
    rw [List.eq_of_mem_replicate hrow]
    simp

theorem generate_grid_space (rows cols : Nat) :
    ∀ row ∈ generate_grid (rows : Int) (cols : Int), ∀ x ∈ row, x = ' ' := by
  intro row hrow x hx
  rw [List.eq_of_mem_replicate hrow] at hx
  exact List.eq_of_mem_replicate hx

/-! ## Lemmas about the inner trial loop (lines 65-75) -/

theorem tryPlace_spec (o : RandOracle) (rows cols : Nat) (g : Grid) (w : Word)
    (ds : List Dir) (hds : ds ≠ []) :
    ∀ (fuel k : Nat) (res : Option (Int × Int × Dir)) (g1 : Grid) (k1 : Nat),
      tryPlace o rows cols g w ds fuel k = (res, g1, k1) →
      (res = none ∧ g1 = g) ∨
      (∃ row col dir, res = some (row, col, dir) ∧ dir ∈ ds ∧
        can_place_word g w row col dir = true ∧
        g1 = place_word g w row col dir) := by
  intro fuel
  induction fuel with
  | zero =>
      intro k res g1 k1 h
      rw [tryPlace] at h
      injection h with h1 h23
      injection h23 with h2 h3
      exact Or.inl ⟨h1.symm, h2.symm⟩
  | succ fuel ih =>
      intro k res g1 k1 h
      rw [tryPlace] at h
      split at h
      · next hcan =>
        injection h with h1 h23
        injection h23 with h2 h3
        refine Or.inr ⟨_, _, _, h1.symm, ?_, hcan, h2.symm⟩
        refine getD_mem_of_lt _ (Nat.mod_lt _ ?_)
        exact List.length_pos.mpr hds
      · exact ih _ _ _ _ h

/-! ## `can_place_word` always fails for an over-long word (spec section 4.2) -/

theorem can_place_word_false_of_long {g : Grid} {rows cols : Nat} (hD : Dims g rows cols)
    {w : Word} (hw : max rows cols < w.length) {d : Dir} (hd : d ∈ directionsInit)
    (row col : Int) : can_place_word g w row col d = false := by
  refine Bool.eq_false_iff.mpr ?_
  intro h
  have hiff := (can_place_word_iff g w row col d).mp h
  have hwr : rows < w.length := lt_of_le_of_lt (le_max_left ..) hw
  have hwc : cols < w.length := lt_of_le_of_lt (le_max_right ..) hw
  have hlen0 : 0 < w.length := by omega
  obtain ⟨⟨h01, h02, h03, h04⟩, _⟩ := hiff 0 hlen0
  obtain ⟨⟨hL1, hL2, hL3, hL4⟩, _⟩ := hiff (w.length - 1) (by omega)
  have hglen : g.length = rows := hD.1
  have hrow0 : (g.getD 0 []).length ≤ cols := by
    rcases Nat.eq_zero_or_pos g.length with h0 | h0
    · rw [List.getD_eq_default _ _ (by omega)]
      simp
    · exact le_of_eq (dims_row_len hD h0)
  rw [hglen] at h02 hL2
  fin_cases hd <;> dsimp only at h01 h02 h03 h04 hL1 hL2 hL3 hL4 <;> omega

/-! ## Lemmas about one outer attempt (lines 59-78) -/

theorem tryPlace_grid (o : RandOracle) (rows cols : Nat) (g : Grid) (w : Word)
    (ds : List Dir) :
    ∀ (fuel k : Nat) (res : Option (Int × Int × Dir)) (g1 : Grid) (k1 : Nat),
      tryPlace o rows cols g w ds fuel k = (res, g1, k1) →
      g1 = g ∨ ∃ row col dir, can_place_word g w row col dir = true ∧
        g1 = place_word g w row col dir := by
  intro fuel
  induction fuel with
  | zero =>
      intro k res g1 k1 h
      rw [tryPlace] at h
      injection h with h1 h23
      injection h23 with h2 h3
      exact Or.inl h2.symm
  | succ fuel ih =>
      intro k res g1 k1 h
      rw [tryPlace] at h
      split at h
      · next hcan =>
        injection h with h1 h23
        injection h23 with h2 h3
        exact Or.inr ⟨_, _, _, hcan, h2.symm⟩
      · exact ih _ _ _ _ h

theorem placeWords_perm (o : RandOracle) (rows cols maxAtt : Nat)
    (hshuf : ∀ j l, (o.shuf j l).Perm l) :
    ∀ (ws : List Word) (g : Grid) (ds : List Dir) (k j : Nat),
      ds.Perm directionsInit →
      (placeWords o rows cols maxAtt ws g ds k j).2.2.2.1.Perm directionsInit := by
  intro ws
  induction ws with
  | nil => intro g ds k j hds; exact hds
  | cons w ws ih =>
      intro g ds k j hds
      have hds1 : (o.shuf j ds).Perm directionsInit := (hshuf j ds).trans hds
      rcases htp : tryPlace o rows cols g w (o.shuf j ds) maxAtt k with ⟨res, g1, k1⟩
      rcases res with _ | ⟨row, col, dir⟩
      · simp only [placeWords, htp]
        exact ih g1 (o.shuf j ds) k1 (j + 1) hds1
      · simp only [placeWords, htp]
        exact ih g1 (o.shuf j ds) k1 (j + 1) hds1

theorem placeWords_inv (o : RandOracle) (rows cols maxAtt : Nat)
    (hshuf : ∀ j l, (o.shuf j l).Perm l) :
    ∀ (ws : List Word) (g : Grid) (ds : List Dir) (k j : Nat),
      Dims g rows cols → ds.Perm directionsInit → (∀ w ∈ ws, ' ' ∉ w) →
      Dims (placeWords o rows cols maxAtt ws g ds k j).1 rows cols ∧
      (placeWords o rows cols maxAtt ws g ds k j).2.2.2.1.Perm directionsInit ∧
      (∀ r c : Int, 0 ≤ r → 0 ≤ c → cellAt g r c ≠ ' ' →
        cellAt (placeWords o rows cols maxAtt ws g ds k j).1 r c = cellAt g r c) ∧
      (∀ rec ∈ (placeWords o rows cols maxAtt ws g ds k j).2.1,
        RecOK rows cols (placeWords o rows cols maxAtt ws g ds k j).1 rec) := by
  intro ws
  induction ws with
  | nil =>
      intro g ds k j hD hds _
      exact ⟨hD, hds, fun r c _ _ _ => rfl, fun rec h => absurd h (List.not_mem_nil rec)⟩
  | cons w ws ih =>
      intro g ds k j hD hds hsp
      have hds1 : (o.shuf j ds).Perm directionsInit := (hshuf j ds).trans hds
      have hds1ne : o.shuf j ds ≠ [] := by
        intro hnil
        have hl := hds1.length_eq
        rw [hnil] at hl
        simp [directionsInit] at hl
      rcases htp : tryPlace o rows cols g w (o.shuf j ds) maxAtt k with ⟨res, g1, k1⟩
      rcases tryPlace_spec o rows cols g w (o.shuf j ds) hds1ne maxAtt k res g1 k1 htp with
        ⟨hres, hg1⟩ | ⟨row, col, dir, hres, hdir, hcan, hg1⟩
      · subst hres
        subst hg1
        simp only [placeWords, htp]
        obtain ⟨ih1, ih2, ih3, ih4⟩ := ih g1 (o.shuf j ds) k1 (j + 1) hD hds1
          (fun w' h' => hsp w' (List.mem_cons_of_mem _ h'))
        exact ⟨ih1, ih2, ih3, ih4⟩
      · subst hres
        subst hg1
        simp only [placeWords, htp]
        have hdirD8 : dir ∈ directionsInit := hds1.mem_iff.mp hdir
        have hdnz : ¬(dir.1 = 0 ∧ dir.2 = 0) := directionsInit_ne_zero dir hdirD8
        have hD1 : Dims (place_word g w row col dir) rows cols :=
          dims_place_word hD w row col dir
        obtain ⟨ih1, ih2, ih3, ih4⟩ := ih (place_word g w row col dir) (o.shuf j ds) k1
          (j + 1) hD1 hds1 (fun w' h' => hsp w' (List.mem_cons_of_mem _ h'))
        refine ⟨ih1, ih2, ?_, ?_⟩
        · intro r c hr hc hne
          have hpres := place_word_preserve hcan r c hr hc hne
          have hne1 : cellAt (place_word g w row col dir) r c ≠ ' ' := by
            rw [hpres]; exact hne
          rw [ih3 r c hr hc hne1, hpres]
        · intro rec hrec
          rcases List.mem_cons.mp hrec with heq | hm
          · subst heq
            simp only [RecOK]
            intro i hi
            obtain ⟨⟨h1, h2, h3, h4⟩, _⟩ := (can_place_word_iff g w row col dir).mp hcan i hi
            have hgr : (g.length : Int) = (rows : Int) := by exact_mod_cast hD.1
            have hg0 : 0 < g.length := by omega
            have hgc : ((g.getD 0 []).length : Int) = (cols : Int) := by
              exact_mod_cast dims_row_len hD hg0
            have hval := place_word_reads hD hcan hdnz i hi
            have hwch : w.getD i ' ' ≠ ' ' := by
              intro hsp'
              exact hsp w (List.mem_cons_self ..) (hsp' ▸ getD_mem_of_lt ' ' hi)
            have hne1 : cellAt (place_word g w row col dir)
                (row + (i : Int) * dir.1) (col + (i : Int) * dir.2) ≠ ' ' := by
              rw [hval]; exact hwch
            refine ⟨h1, by omega, h3, by omega, ?_⟩
            rw [ih3 _ _ h1 h3 hne1, hval]
          · exact ih4 rec hm

theorem placeWords_placed_all (o : RandOracle) (rows cols maxAtt : Nat) :
    ∀ (ws : List Word) (g : Grid) (ds : List Dir) (k j : Nat),
      (placeWords o rows cols maxAtt ws g ds k j).2.2.1 = [] →
      ((placeWords o rows cols maxAtt ws g ds k j).2.1).map (fun rec => rec.1) = ws := by
  intro ws
  induction ws with
  | nil => intro g ds k j _; rfl
  | cons w ws ih =>
      intro g ds k j hus
      rcases htp : tryPlace o rows cols g w (o.shuf j ds) maxAtt k with ⟨res, g1, k1⟩
      rcases res with _ | ⟨row, col, dir⟩
      · simp only [placeWords, htp] at hus
        exact absurd hus (List.cons_ne_nil _ _)
      · simp only [placeWords, htp] at hus ⊢
        rw [List.map_cons, ih g1 (o.shuf j ds) k1 (j + 1) hus]

theorem placeWords_us_sublist (o : RandOracle) (rows cols maxAtt : Nat) :
    ∀ (ws : List Word) (g : Grid) (ds : List Dir) (k j : Nat),
      ((placeWords o rows cols maxAtt ws g ds k j).2.2.1).Sublist ws := by
  intro ws
  induction ws with
  | nil => intro g ds k j; exact List.Sublist.refl _
  | cons w ws ih =>
      intro g ds k j
      rcases htp : tryPlace o rows cols g w (o.shuf j ds) maxAtt k with ⟨res, g1, k1⟩
      rcases res with _ | ⟨row, col, dir⟩
      · simp only [placeWords, htp]
        exact (ih g1 (o.shuf j ds) k1 (j + 1)).cons₂ w
      · simp only [placeWords, htp]
        exact (ih g1 (o.shuf j ds) k1 (j + 1)).cons w

theorem placeWords_chars (o : RandOracle) (rows cols maxAtt : Nat) (P : Char → Prop) :
    ∀ (ws : List Word) (g : Grid) (ds : List Dir) (k j : Nat),
      (∀ row ∈ g, ∀ x ∈ row, x = ' ' ∨ P x) →
      (∀ w ∈ ws, ∀ x ∈ w, P x) →
      ∀ row1 ∈ (placeWords o rows cols maxAtt ws g ds k j).1, ∀ x ∈ row1, x = ' ' ∨ P x := by
  intro ws
  induction ws with
  | nil => intro g ds k j hg _ row1 hrow x hx; exact hg row1 hrow x hx
  | cons w ws ih =>
      intro g ds k j hg hws row1 hrow x hx
      rcases htp : tryPlace o rows cols g w (o.shuf j ds) maxAtt k with ⟨res, g1, k1⟩
      have hg1 : ∀ row ∈ g1, ∀ x ∈ row, x = ' ' ∨ P x := by
        rcases tryPlace_grid o rows cols g w (o.shuf j ds) maxAtt k res g1 k1 htp with
          h | ⟨row', col', dir', _, h⟩
        · subst h; exact hg
        · subst h
          intro row0 hrow0 x0 hx0
          rcases place_word_chars hrow0 hx0 with ⟨rowg, h1, h2⟩ | h1
          · exact hg rowg h1 x0 h2
          · exact Or.inr (hws w (List.mem_cons_self ..) x0 h1)
      have htail := fun w' h' => hws w' (List.mem_cons_of_mem _ h')
      rcases res with _ | ⟨row', col', dir'⟩
      · simp only [placeWords, htp] at hrow
        exact ih g1 (o.shuf j ds) k1 (j + 1) hg1 htail row1 hrow x hx
      · simp only [placeWords, htp] at hrow
        exact ih g1 (o.shuf j ds) k1 (j + 1) hg1 htail row1 hrow x hx

theorem placeWords_toolong (o : RandOracle) (rows cols maxAtt : Nat)
    (hshuf : ∀ j l, (o.shuf j l).Perm l) {w : Word} (hlen : max rows cols < w.length) :
    ∀ (ws : List Word) (g : Grid) (ds : List Dir) (k j : Nat),
      Dims g rows cols → ds.Perm directionsInit → w ∈ ws →
      w ∈ (placeWords o rows cols maxAtt ws g ds k j).2.2.1 := by
  intro ws
  induction ws with
  | nil => intro g ds k j _ _ hw; exact absurd hw (List.not_mem_nil w)
  | cons w' ws ih =>
      intro g ds k j hD hds hw
      have hds1 : (o.shuf j ds).Perm directionsInit := (hshuf j ds).trans hds
      have hds1ne : o.shuf j ds ≠ [] := by
        intro hnil
        have hl := hds1.length_eq
        rw [hnil] at hl
        simp [directionsInit] at hl
      rcases htp : tryPlace o rows cols g w' (o.shuf j ds) maxAtt k with ⟨res, g1, k1⟩
      rcases tryPlace_spec o rows cols g w' (o.shuf j ds) hds1ne maxAtt k res g1 k1 htp with
        ⟨hres, hg1⟩ | ⟨row, col, dir, hres, hdir, hcan, hg1⟩
      · subst hres
        subst hg1
        simp only [placeWords, htp]
        rcases List.mem_cons.mp hw with heq | hm
        · exact heq ▸ List.mem_cons_self ..
        · exact List.mem_cons_of_mem _ (ih g1 (o.shuf j ds) k1 (j + 1) hD hds1 hm)
      · subst hres
        subst hg1
        simp only [placeWords, htp]
        rcases List.mem_cons.mp hw with heq | hm
        · subst heq
          have hdirD8 : dir ∈ directionsInit := hds1.mem_iff.mp hdir
          have := can_place_word_false_of_long hD hlen hdirD8 row col
          rw [hcan] at this
          exact absurd this (by simp)
        · exact ih (place_word g w' row col dir) (o.shuf j ds) k1 (j + 1)
            (dims_place_word hD w' row col dir) hds1 hm

/-! ## Lemmas about the outer retry loop (lines 54-85) -/

theorem generateLoop_ok (o : RandOracle) (ws : List Word) (rows cols maxAtt : Nat)
    (hshuf : ∀ j l, (o.shuf j l).Perm l) (hwords : ∀ w ∈ ws, ' ' ∉ w) :
    ∀ (fuel : Nat) (ds : List Dir) (k j : Nat) (last : Option (List Word))
      (g : Grid) (ps : List (Word × Int × Int × Dir)),
      ds.Perm directionsInit →
      generateLoop o ws rows cols maxAtt fuel ds k j last = .ok (g, ps) →
      Dims g rows cols ∧ (∀ rec ∈ ps, RecOK rows cols g rec) ∧
      ps.map (fun rec => rec.1) = ws ∧
      (∀ row ∈ g, ∀ x ∈ row, x ≠ ' ') := by
  intro fuel
  induction fuel with
  | zero =>
      intro ds k j last g ps _ h
      cases last <;> simp [generateLoop] at h
  | succ fuel ih =>
      intro ds k j last g ps hds h
      rcases hpw : placeWords o rows cols maxAtt ws (generate_grid (rows : Int) (cols : Int))
        ds k j with ⟨g1, ps1, us1, ds1, k1, j1⟩
      have hinv := placeWords_inv o rows cols maxAtt hshuf ws
        (generate_grid (rows : Int) (cols : Int)) ds k j
        (dims_generate_grid rows cols) hds hwords
      simp only [hpw] at hinv
      obtain ⟨hD1, hperm1, _, hrec1⟩ := hinv
      rcases us1 with _ | ⟨u, us'⟩
      · have hmap := placeWords_placed_all o rows cols maxAtt ws
          (generate_grid (rows : Int) (cols : Int)) ds k j (by rw [hpw])
        simp only [hpw] at hmap
        simp only [generateLoop, hpw] at h
        simp only [Except.ok.injEq, Prod.mk.injEq] at h
        obtain ⟨hg, hps⟩ := h
        subst hg
        subst hps
        refine ⟨fill_dims o g1 k1 hD1, ?_, hmap, fill_no_space o g1 k1⟩
        intro rec hmem
        have hwmem : rec.1 ∈ ws := by
          rw [← hmap]
          exact List.mem_map_of_mem _ hmem
        obtain ⟨w, row, col, d⟩ := rec
        have h5 := hrec1 _ hmem
        simp only [RecOK] at h5 ⊢
        intro i hi
        obtain ⟨h1, h2, h3, h4, h5v⟩ := h5 i hi
        refine ⟨h1, h2, h3, h4, ?_⟩
        have hch : w.getD i ' ' ≠ ' ' := by
          intro hsp'
          exact hwords w hwmem (hsp' ▸ getD_mem_of_lt ' ' hi)
        have hne : cellAt g1 (row + (i : Int) * d.1) (col + (i : Int) * d.2) ≠ ' ' := by
          rw [h5v]; exact hch
        rw [fill_cellAt_preserve o g1 k1 _ _ hne, h5v]
      · simp only [generateLoop, hpw] at h
        exact ih ds1 k1 j1 (some (u :: us')) g ps hperm1 h

theorem generateLoop_upper (o : RandOracle) (ws : List Word) (rows cols maxAtt : Nat)
    (hup : ∀ w ∈ ws, ∀ x ∈ w, x ∈ asciiUppercase) :
    ∀ (fuel : Nat) (ds : List Dir) (k j : Nat) (last : Option (List Word))
      (g : Grid) (ps : List (Word × Int × Int × Dir)),
      generateLoop o ws rows cols maxAtt fuel ds k j last = .ok (g, ps) →
      ∀ row ∈ g, ∀ x ∈ row, x ∈ asciiUppercase := by
  intro fuel
  induction fuel with
  | zero =>
      intro ds k j last g ps h
      cases last <;> simp [generateLoop] at h
  | succ fuel ih =>
      intro ds k j last g ps h
      rcases hpw : placeWords o rows cols maxAtt ws (generate_grid (rows : Int) (cols : Int))
        ds k j with ⟨g1, ps1, us1, ds1, k1, j1⟩
      rcases us1 with _ | ⟨u, us'⟩
      · have hchars := placeWords_chars o rows cols maxAtt (fun x => x ∈ asciiUppercase) ws
          (generate_grid (rows : Int) (cols : Int)) ds k j
          (fun row hrow x hx => Or.inl (generate_grid_space rows cols row hrow x hx)) hup
        simp only [hpw] at hchars
        simp only [generateLoop, hpw] at h
        simp only [Except.ok.injEq, Prod.mk.injEq] at h
        obtain ⟨hg, _⟩ := h
        subst hg
        intro row1 hrow x hx
        rcases fill_chars o g1 k1 row1 x hrow hx with ⟨⟨row0, hr0, hx0⟩, hne⟩ | hm
        · rcases hchars row0 hr0 x hx0 with h' | h'
          · exact absurd h' hne
          · exact h'
        · exact hm
      · simp only [generateLoop, hpw] at h
        exact ih ds1 k1 j1 (some (u :: us')) g ps h

theorem generateLoop_err (o : RandOracle) (ws : List Word) (rows cols maxAtt : Nat) :
    ∀ (fuel : Nat) (ds : List Dir) (k j : Nat) (last : Option (List Word)) (e : GenError),
      generateLoop o ws rows cols maxAtt (fuel + 1) ds k j last = .error e →
      ∃ us ds0 k0 j0, e = .couldNotPlace us ∧ us ≠ [] ∧ us.Sublist ws ∧
        (placeWords o rows cols maxAtt ws (generate_grid (rows : Int) (cols : Int))
          ds0 k0 j0).2.2.1 = us := by
  intro fuel
  induction fuel with
  | zero =>
      intro ds k j last e h
      rcases hpw : placeWords o rows cols maxAtt ws (generate_grid (rows : Int) (cols : Int))
        ds k j with ⟨g1, ps1, us1, ds1, k1, j1⟩
      rcases us1 with _ | ⟨u, us'⟩
      · simp [generateLoop, hpw] at h
      · simp only [generateLoop, hpw] at h
        simp only [Except.error.injEq] at h
        refine ⟨u :: us', ds, k, j, h.symm, List.cons_ne_nil _ _, ?_, by rw [hpw]⟩
        have := placeWords_us_sublist o rows cols maxAtt ws
          (generate_grid (rows : Int) (cols : Int)) ds k j
        simpa only [hpw] using this
  | succ fuel ih =>
      intro ds k j last e h
      rcases hpw : placeWords o rows cols maxAtt ws (generate_grid (rows : Int) (cols : Int))
        ds k j with ⟨g1, ps1, us1, ds1, k1, j1⟩
      rcases us1 with _ | ⟨u, us'⟩
      · simp [generateLoop, hpw] at h
      · simp only [generateLoop, hpw] at h
        exact ih ds1 k1 j1 (some (u :: us')) e h

theorem generateLoop_long (o : RandOracle) (ws : List Word) (rows cols maxAtt : Nat)
    (hshuf : ∀ j l, (o.shuf j l).Perm l) {w : Word} (hw : w ∈ ws)
    (hlen : max rows cols < w.length) :
    ∀ (fuel : Nat) (ds : List Dir) (k j : Nat) (last : Option (List Word)),
      ds.Perm directionsInit → 1 ≤ fuel →
      (∀ us0, last = some us0 → w ∈ us0) →
      ∃ us, generateLoop o ws rows cols maxAtt fuel ds k j last =
        .error (.couldNotPlace us) ∧ w ∈ us := by
  intro fuel
  induction fuel with
  | zero => intro ds k j last _ h _; omega
  | succ fuel ih =>
      intro ds k j last hds _ hlast
      rcases hpw : placeWords o rows cols maxAtt ws (generate_grid (rows : Int) (cols : Int))
        ds k j with ⟨g1, ps1, us1, ds1, k1, j1⟩
      have hmem := placeWords_toolong o rows cols maxAtt hshuf hlen ws
        (generate_grid (rows : Int) (cols : Int)) ds k j
        (dims_generate_grid rows cols) hds hw
      simp only [hpw] at hmem
      have hperm1 := placeWords_perm o rows cols maxAtt hshuf ws
        (generate_grid (rows : Int) (cols : Int)) ds k j hds
      simp only [hpw] at hperm1
      rcases us1 with _ | ⟨u, us'⟩
      · exact absurd hmem (List.not_mem_nil w)
      · cases fuel with
        | zero =>
            refine ⟨u :: us', ?_, hmem⟩
            simp only [generateLoop, hpw]
        | succ fuel' =>
            obtain ⟨us, hloop, hus⟩ := ih ds1 k1 j1 (some (u :: us')) hperm1 (by omega)
              (fun us0 h0 => by injection h0 with h0; exact h0 ▸ hmem)
            refine ⟨us, ?_, hus⟩
            simp only [generateLoop, hpw]
            exact hloop

/-! ## Lemmas about the word ordering (line 52) -/

theorem sortWords_perm (ws : List Word) : (sortWords ws).Perm ws :=
  List.perm_insertionSort _ _

theorem sortWords_sorted (ws : List Word) :
    List.Sorted (fun a b : Word => b.length ≤ a.length) (sortWords ws) := by
  haveI : IsTotal Word (fun a b : Word => b.length ≤ a.length) :=
    ⟨fun a b => Nat.le_total b.length a.length⟩
  haveI : IsTrans Word (fun a b : Word => b.length ≤ a.length) :=
    ⟨fun _ _ _ hab hbc => Nat.le_trans hbc hab⟩
  exact List.sorted_insertionSort _ _

theorem filter_len_orderedInsert (n : Nat) (a : Word) :
    ∀ l : List Word,
      (List.orderedInsert (fun x y : Word => y.length ≤ x.length) a l).filter
        (fun w => w.length == n) =
      if a.length = n then a :: l.filter (fun w => w.length == n)
      else l.filter (fun w => w.length == n) := by
  intro l
  induction l with
  | nil =>
      by_cases han : a.length = n <;> simp [List.orderedInsert, han]
  | cons b l ih =>
      rw [List.orderedInsert]
      split
      · by_cases han : a.length = n <;> simp [List.filter_cons, han]
      · next hnot =>
        have hab : a.length < b.length := Nat.lt_of_not_le hnot
        by_cases han : a.length = n
        · have hb : ¬ b.length = n := by omega
          simp [List.filter_cons, han, hb, ih]
        · simp [List.filter_cons, han, ih]

theorem sortWords_stable (ws : List Word) (n : Nat) :
    (sortWords ws).filter (fun w => w.length == n) =
      ws.filter (fun w => w.length == n) := by
  induction ws with
  | nil => rfl
  | cons w ws ih =>
      simp only [sortWords] at ih ⊢
      rw [List.insertionSort, filter_len_orderedInsert n w (List.insertionSort _ ws)]
      by_cases han : w.length = n
      · simp [List.filter_cons, han, ih]
      · simp [List.filter_cons, han, ih]

theorem generateLoop_ok_basic (o : RandOracle) (ws : List Word) (rows cols maxAtt : Nat) :
    ∀ (fuel : Nat) (ds : List Dir) (k j : Nat) (last : Option (List Word))
      (g : Grid) (ps : List (Word × Int × Int × Dir)),
      generateLoop o ws rows cols maxAtt fuel ds k j last = .ok (g, ps) →
      ps.map (fun rec => rec.1) = ws ∧ (∀ row ∈ g, ∀ x ∈ row, x ≠ ' ') := by
  intro fuel
  induction fuel with
  | zero =>
      intro ds k j last g ps h
      cases last <;> simp [generateLoop] at h
  | succ fuel ih =>
      intro ds k j last g ps h
      rcases hpw : placeWords o rows cols maxAtt ws (generate_grid (rows : Int) (cols : Int))
        ds k j with ⟨g1, ps1, us1, ds1, k1, j1⟩
      rcases us1 with _ | ⟨u, us'⟩
      · have hmap := placeWords_placed_all o rows cols maxAtt ws
          (generate_grid (rows : Int) (cols : Int)) ds k j (by rw [hpw])
        simp only [hpw] at hmap
        simp only [generateLoop, hpw] at h
        simp only [Except.ok.injEq, Prod.mk.injEq] at h
        obtain ⟨hg, hps⟩ := h
        subst hg
        subst hps
        exact ⟨hmap, fill_no_space o g1 k1⟩
      · simp only [generateLoop, hpw] at h
        exact ih ds1 k1 j1 (some (u :: us')) g ps h

/-! ## Claim theorems -/

/-- C1: for a direction from the eight-direction set, `can_place_word` returns
`true` exactly when every target cell `(row + i·dRow, col + i·dCol)` for
`i ∈ [0, len word)` lies in `[0, rows) × [0, cols)` and is either empty or
already holds `word[i]` (`w.getD i ' '` is `word[i]` since `i < w.length`);
it returns `false` as soon as some target cell is out of bounds, or is
in bounds, non-empty and holds a letter different from `word[i]`.  `rows` and
`cols` are read off the grid exactly as in the source (`len(grid)`,
`len(grid[0])`).  The claim's "leaves the grid unchanged / no side effects"
is inherent in the embedding: `can_place_word` is a pure function of the grid
value returning only a `Bool`, so repeated calls agree and cannot mutate. -/
theorem claim1_can_place_word_spec (g : Grid) (w : Word) (row col : Int) (d : Dir)
    (_hd : d ∈ directionsInit) :
    can_place_word g w row col d = true ↔
      ∀ i < w.length,
        (0 ≤ row + (i : Int) * d.1 ∧ row + (i : Int) * d.1 < (g.length : Int) ∧
         0 ≤ col + (i : Int) * d.2 ∧ col + (i : Int) * d.2 < ((g.getD 0 []).length : Int)) ∧
        (cellAt g (row + (i : Int) * d.1) (col + (i : Int) * d.2) = ' ' ∨
         cellAt g (row + (i : Int) * d.1) (col + (i : Int) * d.2) = w.getD i ' ') :=
  can_place_word_iff g w row col d

/-- Witness for C1 at a concrete grid, word, start cell and direction. -/
theorem claim1_witness : can_place_word [[' ', 'B']] ['A', 'B'] 0 0 (0, 1) = true :=
  (claim1_can_place_word_spec [[' ', 'B']] ['A', 'B'] 0 0 (0, 1) (by decide)).mpr
    (by decide)

/-- C4 counterexample: the source's `generate_grid` does not validate its
dimensions and cannot fail; at `rows = 0, cols = 5` it silently returns the
empty grid, whereas the specification's `create` (modelled as `createSpec`)
fails with `InvalidDimension`. -/
theorem claim4_counterexample :
    generate_grid 0 5 = [] ∧ createSpec 0 5 = .error .invalidDimension :=
  ⟨rfl, rfl⟩

/-- C4 amended: grid creation never fails and performs no dimension
validation: for every `rows` and `cols` (of any sign) it returns a grid of
`max rows 0` rows, each of `max cols 0` cells, every cell set to the empty
sentinel; in particular for `rows ≤ 0` it returns an empty grid instead of
failing with `InvalidDimension`. -/
theorem claim4_generate_grid_no_validation (rows cols : Int) :
    (generate_grid rows cols).length = rows.toNat ∧
    ∀ row ∈ generate_grid rows cols, row.length = cols.toNat ∧ ∀ x ∈ row, x = ' ' := by
  refine ⟨by simp [generate_grid], ?_⟩
  intro row hrow
  rw [List.eq_of_mem_replicate hrow]
  exact ⟨by simp, fun x hx => List.eq_of_mem_replicate hx⟩

/-- Witness for the amended C4 at concrete positive dimensions. -/
theorem claim4_witness :
    (generate_grid 2 3).length = (2 : Int).toNat ∧
    ∀ row ∈ generate_grid 2 3, row.length = (3 : Int).toNat ∧ ∀ x ∈ row, x = ' ' :=
  claim4_generate_grid_no_validation 2 3

/-- C8: under the precondition that `can_place_word` holds on the current
grid (and for a direction of the eight-direction set, the only directions the
algorithm passes to `place_word`), `place_word` writes `word[i]` into cell
`(row + i·dRow, col + i·dCol)` for every `i ∈ [0, len word)` and leaves every
cell not on that path unchanged. -/
theorem claim8_place_word_frame {g : Grid} {rows cols : Nat} {w : Word}
    {row col : Int} {d : Dir} (hD : Dims g rows cols) (hd : d ∈ directionsInit)
    (hc : can_place_word g w row col d = true) :
    (∀ i < w.length, cellAt (place_word g w row col d)
        (row + (i : Int) * d.1) (col + (i : Int) * d.2) = w.getD i ' ') ∧
    (∀ r c : Int, 0 ≤ r → 0 ≤ c →
      (∀ i < w.length, ¬(row + (i : Int) * d.1 = r ∧ col + (i : Int) * d.2 = c)) →
      cellAt (place_word g w row col d) r c = cellAt g r c) :=
  ⟨place_word_reads hD hc (directionsInit_ne_zero d hd),
   fun r c hr hc0 hni => place_word_frame r c hr hc0 hni⟩

/-- Witness for C8: placing `"AB"` eastwards at the origin of a 1×3 blank
grid writes its two letters and leaves the third cell blank. -/
theorem claim8_witness :
    cellAt (place_word [[' ', ' ', ' ']] ['A', 'B'] 0 0 (0, 1)) 0 0 = 'A' ∧
    cellAt (place_word [[' ', ' ', ' ']] ['A', 'B'] 0 0 (0, 1)) 0 1 = 'B' ∧
    cellAt (place_word [[' ', ' ', ' ']] ['A', 'B'] 0 0 (0, 1)) 0 2 = ' ' := by
  have h := @claim8_place_word_frame [[' ', ' ', ' ']] 1 3 ['A', 'B'] 0 0 (0, 1)
    ⟨rfl, by decide⟩ (by decide) (by decide)
  refine ⟨?_, ?_, ?_⟩
  · have := h.1 0 (by decide)
    simpa using this
  · have := h.1 1 (by decide)
    simpa using this
  · have := h.2 0 2 (by decide) (by decide) (by decide)
    simpa using this

/-- C9: placement is idempotent with respect to feasibility: whenever
`can_place_word` holds, it still holds on the grid produced by `place_word`
with the same arguments (the path now holds exactly the word's letters).
Consequently a duplicated input word can be committed onto exactly the same
cells as its first copy: the concrete run in the second conjunct places the
word list `["AB", "AB"]` on a 2×1 grid and returns two placement records
covering identical cells. -/
theorem claim9_can_place_after_place {g : Grid} {rows cols : Nat} {w : Word}
    {row col : Int} {d : Dir} (hD : Dims g rows cols) (hd : d ∈ directionsInit)
    (hc : can_place_word g w row col d = true) :
    can_place_word (place_word g w row col d) w row col d = true ∧
    generate_word_search oZero [['A', 'B'], ['A', 'B']] 2 1 1 1 =
      .ok ([['A'], ['B']], [(['A', 'B'], 0, 0, (1, 0)), (['A', 'B'], 0, 0, (1, 0))]) := by
  refine ⟨?_, rfl⟩
  rw [can_place_word_iff]
  intro i hi
  obtain ⟨⟨h1, h2, h3, h4⟩, _⟩ := (can_place_word_iff g w row col d).mp hc i hi
  have e1 : ((place_word g w row col d).length : Int) = (g.length : Int) := by
    exact_mod_cast placeCells_length w row col d (List.range w.length) g
  have e2 : (((place_word g w row col d).getD 0 []).length : Int) =
      ((g.getD 0 []).length : Int) := by
    exact_mod_cast placeCells_rowLen w row col d (List.range w.length) g 0
  refine ⟨⟨h1, by omega, h3, by omega⟩, Or.inr ?_⟩
  exact place_word_reads hD hc (directionsInit_ne_zero d hd) i hi

/-- Witness for C9 at a concrete grid, word and direction. -/
theorem claim9_witness :
    can_place_word (place_word [[' '], [' ']] ['C', 'D'] 0 0 (1, 0))
      ['C', 'D'] 0 0 (1, 0) = true :=
  (@claim9_can_place_after_place [[' '], [' ']] 2 1 ['C', 'D'] 0 0 (1, 0)
    ⟨rfl, by decide⟩ (by decide) (by decide)).1

/-- C10: for every `max_retries ≤ 0` the outer `for` loop body never runs, so
line 85 reads the never-assigned local `unplaced_words` and the call fails
with the unbound-local error rather than the documented placement failure;
no grid is returned. -/
theorem claim10_unbound_local (o : RandOracle) (words : List Word)
    (rows cols max_attempts : Int) {max_retries : Int} (hmr : max_retries ≤ 0) :
    generate_word_search o words rows cols max_attempts max_retries =
      .error .unboundLocal := by
  unfold generate_word_search
  rw [Int.toNat_of_nonpos hmr]
  rfl

/-- Witness for C10 at a concrete oracle, word list and configuration. -/
theorem claim10_witness :
    generate_word_search oZero [['A']] 3 3 5 0 = .error .unboundLocal :=
  claim10_unbound_local oZero [['A']] 3 3 5 (by decide)

/-- C2 counterexample: the claim quantifies over every configuration, but at
`max_retries = 0` the call returns no grid and raises the unbound-local error
instead of a placement-infeasible failure carrying a word list (the two are
distinct constructors of `GenError`), so the dichotomy as stated fails. -/
theorem claim2_counterexample :
    generate_word_search oZero [] 1 1 1 0 = .error .unboundLocal :=
  rfl

/-- C2 amended: provided `max_retries ≥ 1` and the grid dimensions are
positive, `generate_word_search` is all-or-nothing: it either returns a grid
in which every input word was placed (the returned records' words are a
permutation of the input list) and every cell is filled (no empty sentinel
remains), or it fails with the placement-infeasible error whose reported word
list is exactly the non-empty set of words left unplaced in a single (the
final) attempt — computed by one attempt (`placeWords`) from a fresh empty
grid, not a union across attempts — and in that case no grid is returned.
The dimension hypotheses bound the embedding's faithful domain: for
`rows ≤ 0` or `cols ≤ 0` CPython instead raises `randint`'s empty-range
`ValueError` on the first trial (or `IndexError` at `len(grid[0])` in
`fill_empty_spaces` when the word list is empty), errors the oracle model
does not reproduce. -/
theorem claim2_all_or_nothing (o : RandOracle) (words : List Word)
    {rows cols max_attempts max_retries : Int}
    (_hrows : 1 ≤ rows) (_hcols : 1 ≤ cols) (hmr : 1 ≤ max_retries) :
    (∃ g ps, generate_word_search o words rows cols max_attempts max_retries = .ok (g, ps) ∧
      (ps.map (fun rec => rec.1)).Perm words ∧
      ∀ row ∈ g, ∀ x ∈ row, x ≠ ' ') ∨
    (∃ us, generate_word_search o words rows cols max_attempts max_retries =
        .error (.couldNotPlace us) ∧ us ≠ [] ∧ us.Sublist (sortWords words) ∧
      ∃ ds0 k0 j0, (placeWords o rows.toNat cols.toNat max_attempts.toNat (sortWords words)
        (generate_grid (rows.toNat : Int) (cols.toNat : Int)) ds0 k0 j0).2.2.1 = us) := by
  obtain ⟨n, hn⟩ : ∃ n, max_retries.toNat = n + 1 := ⟨max_retries.toNat - 1, by omega⟩
  rcases hgen : generate_word_search o words rows cols max_attempts max_retries with e | v
  · right
    unfold generate_word_search at hgen
    rw [hn] at hgen
    obtain ⟨us, ds0, k0, j0, he, hne, hsub, hpw⟩ :=
      generateLoop_err o (sortWords words) rows.toNat cols.toNat max_attempts.toNat
        n directionsInit 0 0 none e hgen
    exact ⟨us, he ▸ rfl, hne, hsub, ds0, k0, j0, hpw⟩
  · left
    obtain ⟨g, ps⟩ := v
    unfold generate_word_search at hgen
    rw [hn] at hgen
    obtain ⟨hmap, hnsp⟩ := generateLoop_ok_basic o (sortWords words) rows.toNat cols.toNat
      max_attempts.toNat (n + 1) directionsInit 0 0 none g ps hgen
    exact ⟨g, ps, rfl, hmap ▸ sortWords_perm words, hnsp⟩

/-- Witness for the amended C2 at a concrete configuration (hypotheses
`1 ≤ rows`, `1 ≤ cols` and `1 ≤ max_retries` discharged at `1`). -/
theorem claim2_witness :
    (∃ g ps, generate_word_search oZero [['A']] 1 1 1 1 = .ok (g, ps) ∧
      (ps.map (fun rec => rec.1)).Perm [['A']] ∧
      ∀ row ∈ g, ∀ x ∈ row, x ≠ ' ') ∨
    (∃ us, generate_word_search oZero [['A']] 1 1 1 1 =
        .error (.couldNotPlace us) ∧ us ≠ [] ∧ us.Sublist (sortWords [['A']]) ∧
      ∃ ds0 k0 j0, (placeWords oZero (1 : Int).toNat (1 : Int).toNat (1 : Int).toNat
        (sortWords [['A']]) (generate_grid ((1 : Int).toNat : Int) ((1 : Int).toNat : Int))
        ds0 k0 j0).2.2.1 = us) :=
  claim2_all_or_nothing oZero [['A']] (by decide) (by decide) (by decide)

/-- C3: every placement record returned by a successful run reads back: for
every record `(w, row, col, d)` in the returned list and every offset
`i < len w`, the target cell is in bounds and the final grid holds exactly
`w[i]` there — later placements and the noise fill never overwrite a placed
letter with a different one.  The oracle hypothesis states that
`random.shuffle` returns a permutation of its list (true of every real run);
the word hypothesis states the spec's input contract that words are
whitespace-stripped (a word containing the space sentinel could be overwritten
by the fill). -/
theorem claim3_words_read_back (o : RandOracle) (words : List Word)
    {rows cols max_attempts max_retries : Int} {g : Grid}
    {ps : List (Word × Int × Int × Dir)}
    (hshuf : ∀ j l, (o.shuf j l).Perm l)
    (hwords : ∀ w ∈ words, ' ' ∉ w)
    (hres : generate_word_search o words rows cols max_attempts max_retries = .ok (g, ps)) :
    ∀ rec ∈ ps, RecOK rows.toNat cols.toNat g rec := by
  unfold generate_word_search at hres
  rcases hfuel : max_retries.toNat with _ | n
  · rw [hfuel] at hres
    simp [generateLoop] at hres
  · rw [hfuel] at hres
    have hw' : ∀ w ∈ sortWords words, ' ' ∉ w :=
      fun w hw => hwords w ((sortWords_perm words).mem_iff.mp hw)
    exact (generateLoop_ok o (sortWords words) rows.toNat cols.toNat max_attempts.toNat
      hshuf hw' (n + 1) directionsInit 0 0 none g ps (List.Perm.refl _) hres).2.1

/-- Witness for C3: in the concrete run placing `"AB"` downwards on a 2×1
grid, the returned record reads back from the returned grid: the final grid
holds `'A'` at the start cell and `'B'` one step along the direction. -/
theorem claim3_witness :
    cellAt [['A'], ['B']] 0 0 = 'A' ∧ cellAt [['A'], ['B']] 1 0 = 'B' := by
  have h := @claim3_words_read_back oZero [['A', 'B']] 2 1 1 1 [['A'], ['B']]
    [(['A', 'B'], 0, 0, (1, 0))] (fun _ l => List.Perm.refl l) (by decide) rfl
  have h2 := h _ (List.mem_cons_self ..)
  simp only [RecOK] at h2
  have ha := (h2 0 (by decide)).2.2.2.2
  have hb := (h2 1 (by decide)).2.2.2.2
  exact ⟨ha, hb⟩

/-- C5 counterexample: with the lowercase input word `"a"` the run succeeds
and the returned grid holds the lowercase letter `'a'`, which is not an
uppercase letter, refuting "every cell holds exactly one uppercase letter"
for arbitrary word lists: placement preserves case and the source never
uppercases its input. -/
theorem claim5_counterexample :
    generate_word_search oZero [['a']] 1 1 1 1 = .ok ([['a']], [(['a'], 0, 0, (1, 0))]) ∧
    'a' ∉ asciiUppercase :=
  ⟨rfl, by decide⟩

/-- C5 amended: for every successful run, every cell holds exactly one
character and no cell still holds the empty sentinel; and provided every
character of every input word is an uppercase letter, every cell holds
exactly one uppercase letter. -/
theorem claim5_filled_no_empties (o : RandOracle) (words : List Word)
    {rows cols max_attempts max_retries : Int} {g : Grid}
    {ps : List (Word × Int × Int × Dir)}
    (hres : generate_word_search o words rows cols max_attempts max_retries = .ok (g, ps)) :
    (∀ row ∈ g, ∀ x ∈ row, x ≠ ' ') ∧
    ((∀ w ∈ words, ∀ x ∈ w, x ∈ asciiUppercase) →
      ∀ row ∈ g, ∀ x ∈ row, x ∈ asciiUppercase) := by
  unfold generate_word_search at hres
  rcases hfuel : max_retries.toNat with _ | n
  · rw [hfuel] at hres
    simp [generateLoop] at hres
  · rw [hfuel] at hres
    constructor
    · exact (generateLoop_ok_basic o (sortWords words) rows.toNat cols.toNat
        max_attempts.toNat (n + 1) directionsInit 0 0 none g ps hres).2
    · intro hup
      have hup' : ∀ w ∈ sortWords words, ∀ x ∈ w, x ∈ asciiUppercase :=
        fun w hw => hup w ((sortWords_perm words).mem_iff.mp hw)
      exact generateLoop_upper o (sortWords words) rows.toNat cols.toNat
        max_attempts.toNat hup' (n + 1) directionsInit 0 0 none g ps hres

/-- Witness for the amended C5 on a concrete successful run. -/
theorem claim5_witness :
    (∀ row ∈ [['A']], ∀ x ∈ row, x ≠ ' ') ∧
    ((∀ w ∈ [['A']], ∀ x ∈ w, x ∈ asciiUppercase) →
      ∀ row ∈ [['A']], ∀ x ∈ row, x ∈ asciiUppercase) :=
  @claim5_filled_no_empties oZero [['A']] 1 1 1 1 [['A']] [(['A'], 0, 0, (1, 0))] rfl

/-- C6: a word longer than `max(rows, cols)` can never be placed:
`can_place_word` returns `false` for it on every `rows × cols` grid, every
start cell and every direction of the eight-direction set; consequently
`generate_word_search` on a word list containing such a word never succeeds
and, with at least one retry, surfaces the placement-infeasible failure
reporting that word after exhausting its budgets.  The oracle hypothesis
states that `random.shuffle` returns a permutation of its list.  The
positive-dimension hypotheses bound the embedding's faithful domain: they
make every quantified grid non-empty (so `len(grid[0])` in the source's
`can_place_word` is defined) and keep `randint`'s ranges non-empty (for
`rows ≤ 0` or `cols ≤ 0` CPython raises an empty-range `ValueError` on the
first trial instead of reaching the placement-infeasible failure). -/
theorem claim6_long_word_infeasible (o : RandOracle) (words : List Word)
    {rows cols max_attempts max_retries : Int} {w : Word}
    (hshuf : ∀ j l, (o.shuf j l).Perm l)
    (_hrows : 1 ≤ rows) (_hcols : 1 ≤ cols)
    (hw : w ∈ words) (hlen : max rows.toNat cols.toNat < w.length)
    (hmr : 1 ≤ max_retries) :
    (∀ (g : Grid) (row col : Int) (d : Dir), Dims g rows.toNat cols.toNat →
      d ∈ directionsInit → can_place_word g w row col d = false) ∧
    ∃ us, generate_word_search o words rows cols max_attempts max_retries =
      .error (.couldNotPlace us) ∧ w ∈ us := by
  constructor
  · intro g row col d hD hd
    exact can_place_word_false_of_long hD hlen hd row col
  · unfold generate_word_search
    obtain ⟨n, hn⟩ : ∃ n, max_retries.toNat = n + 1 := ⟨max_retries.toNat - 1, by omega⟩
    rw [hn]
    exact generateLoop_long o (sortWords words) rows.toNat cols.toNat max_attempts.toNat
      hshuf ((sortWords_perm words).mem_iff.mpr hw) hlen (n + 1) directionsInit 0 0 none
      (List.Perm.refl _) (by omega) (fun us0 h0 => Option.noConfusion h0)

/-- Witness for C6: the word `"AAA"` does not fit a 2×2 grid and the run
fails reporting it. -/
theorem claim6_witness :
    (∀ (g : Grid) (row col : Int) (d : Dir), Dims g (2 : Int).toNat (2 : Int).toNat →
      d ∈ directionsInit → can_place_word g ['A', 'A', 'A'] row col d = false) ∧
    ∃ us, generate_word_search oZero [['A', 'A', 'A']] 2 2 1 1 =
      .error (.couldNotPlace us) ∧ ['A', 'A', 'A'] ∈ us :=
  @claim6_long_word_infeasible oZero [['A', 'A', 'A']] 2 2 1 1 ['A', 'A', 'A']
    (fun _ l => List.Perm.refl l) (by decide) (by decide) (by decide) (by decide) (by decide)

/-- C7: in every outer attempt the words are attempted in the order given by
a stable sort of the input list by descending length, and on success the
returned placement records follow exactly that order: their word components
are `sortWords words`, which is a permutation of the input, is sorted by
descending length, and is stable (for every length `n`, its words of length
`n` are exactly the input's words of length `n` in input order). -/
theorem claim7_sorted_order (o : RandOracle) (words : List Word)
    {rows cols max_attempts max_retries : Int} {g : Grid}
    {ps : List (Word × Int × Int × Dir)}
    (hres : generate_word_search o words rows cols max_attempts max_retries = .ok (g, ps)) :
    ps.map (fun rec => rec.1) = sortWords words ∧
    (sortWords words).Perm words ∧
    List.Sorted (fun a b : Word => b.length ≤ a.length) (sortWords words) ∧
    ∀ n, (sortWords words).filter (fun w => w.length == n) =
      words.filter (fun w => w.length == n) := by
  refine ⟨?_, sortWords_perm words, sortWords_sorted words, fun n => sortWords_stable words n⟩
  unfold generate_word_search at hres
  rcases hfuel : max_retries.toNat with _ | n
  · rw [hfuel] at hres
    simp [generateLoop] at hres
  · rw [hfuel] at hres
    exact (generateLoop_ok_basic o (sortWords words) rows.toNat cols.toNat
      max_attempts.toNat (n + 1) directionsInit 0 0 none g ps hres).1

/-- Witness for C7: with input `["A", "AB"]` the records of the successful
concrete run follow the stable descending-length order `["AB", "A"]`. -/
theorem claim7_witness :
    ([((['A', 'B'] : Word), (0 : Int), (0 : Int), ((1 : Int), (0 : Int))),
      ((['A'] : Word), (0 : Int), (0 : Int), ((1 : Int), (0 : Int)))].map
        (fun rec => rec.1) = sortWords [['A'], ['A', 'B']]) ∧
    (sortWords [['A'], ['A', 'B']]).Perm [['A'], ['A', 'B']] ∧
    List.Sorted (fun a b : Word => b.length ≤ a.length) (sortWords [['A'], ['A', 'B']]) ∧
    ∀ n, (sortWords [['A'], ['A', 'B']]).filter (fun w => w.length == n) =
      [['A'], ['A', 'B']].filter (fun w => w.length == n) :=
  @claim7_sorted_order oZero [['A'], ['A', 'B']] 2 2 1 1
    [['A', 'A'], ['B', 'A']]
    [(['A', 'B'], 0, 0, (1, 0)), (['A'], 0, 0, (1, 0))] rfl
